import Mathlib

/-!
# Verification of the org-rs headline parser (`src/rust/element/src/headline.rs`)

A shallow embedding of the headline / planning / property-drawer parsing code
of org-rs.  The buffer is a `List Char` and cursor positions are `Nat` offsets,
mirroring the byte-offset cursor of the Rust code.  The statically defined
regular expressions of the source (`REGEX_HEADLINE_SHORT`, `REGEX_TODO`,
`REGEX_TODO_DONE`, `REGEX_PLANNING_LINE`, `REGEX_HEADLINE_PRIORITY`, the tag
pattern of the mirrored elisp) are embedded as executable matching functions.

The Rust file is a partial skeleton: `headlineParser` ends in
`unimplemented!()` after the TODO-keyword and priority-cookie matches, and
the property-drawer and node-property parsers are unimplemented stubs.
Wherever the deciding code is missing from the source, the corresponding
definition carries a doc comment starting `Modelled from the spec:` and follows
the specification's words; everything else is translated from the source.

All scanning loops are written with explicit fuel (structural recursion on a
`Nat`), so that every definition evaluates by `decide`/`rfl` in the kernel.
-/

deriving instance DecidableEq for Except

namespace OrgRs


/-- The text buffer: an immutable sequence of characters, indexed by offsets. -/
abbrev Buffer := List Char

/-- Character at offset `i`; out-of-range reads yield the NUL character, which
belongs to none of the character classes used by the parser. -/
def chAt (s : Buffer) (i : Nat) : Char := s.getD i '\x00'

/-- Horizontal whitespace, the `[ \t]` class used by `skip_chars_forward(" \t")`
and by the whitespace requirement of `REGEX_TODO`. -/
def blankHT (c : Char) : Prop := c = ' ' ∨ c = '\t'

instance : DecidablePred blankHT := fun c => by unfold blankHT; infer_instance

/-- The `" \r\t\n"` class of the elisp `skip-chars-forward`/`skip-chars-backward`
calls that delimit the contents of a headline. -/
def blank4 (c : Char) : Prop := c = ' ' ∨ c = '\r' ∨ c = '\t' ∨ c = '\n'

instance : DecidablePred blank4 := fun c => by unfold blank4; infer_instance

/-- The whitespace class trimmed from both ends by `org-trim` (`"[ \t\n\r]+"`). -/
def orgTrimWS (c : Char) : Prop := c = ' ' ∨ c = '\t' ∨ c = '\n' ∨ c = '\r'

instance : DecidablePred orgTrimWS := fun c => by unfold orgTrimWS; infer_instance

/-- The characters matched by the Rust regex class `\s` (Unicode `White_Space`),
as used by `REGEX_HEADLINE_SHORT = ^\*+\s`. -/
def rustWhitespaceChars : List Char :=
  ['\t', '\n', '\x0B', '\x0C', '\r', ' ', '\u0085', '\u00A0', '\u1680',
   '\u2000', '\u2001', '\u2002', '\u2003', '\u2004', '\u2005', '\u2006',
   '\u2007', '\u2008', '\u2009', '\u200A', '\u2028', '\u2029', '\u202F',
   '\u205F', '\u3000']

/-- Membership in the Rust regex `\s` class. -/
def rustWhitespace (c : Char) : Prop := c ∈ rustWhitespaceChars

instance : DecidablePred rustWhitespace := fun c => by
  unfold rustWhitespace; infer_instance

/-! ## The cursor's forward class skip (`Cursor::skip_chars_forward`) -/

/-- Fuelled loop of `skipForward`: starting at `i`, advance while the position
is below `lim`, inside the buffer, and the current character satisfies `p`. -/
def skipForwardGo (p : Char → Prop) [DecidablePred p] (s : Buffer) (lim : Nat) :
    Nat → Nat → Nat
  | 0, i => i
  | fuel + 1, i =>
      if i < lim ∧ i < s.length ∧ p (chAt s i) then
        skipForwardGo p s lim fuel (i + 1)
      else i

/-- `skip_chars_forward`: the position reached from `i` by skipping characters
of class `p`, bounded by `lim` and by the end of the buffer.  The fuel `lim + 1`
dominates the at most `lim - i` iterations. -/
def skipForward (p : Char → Prop) [DecidablePred p] (s : Buffer) (i lim : Nat) :
    Nat :=
  skipForwardGo p s lim (lim + 1) i

/-! ## Line geometry (elisp `line-end-position`, `forward-line`,
`line-beginning-position`) -/

/-- Fuelled loop of `lineEnd`. -/
def lineEndGo (s : Buffer) : Nat → Nat → Nat
  | 0, i => i
  | fuel + 1, i =>
      if i < s.length then
        (if chAt s i = '\n' then i else lineEndGo s fuel (i + 1))
      else i

/-- Offset of the end of the line containing `i`: the first newline at or after
`i`, or the end of the buffer (elisp `line-end-position`). -/
def lineEnd (s : Buffer) (i : Nat) : Nat := lineEndGo s (s.length + 1) i

/-- Offset of the start of the line following the line containing `i`
(elisp `forward-line` from `i`); clipped to the end of the buffer. -/
def nextLineStart (s : Buffer) (i : Nat) : Nat :=
  min (lineEnd s i + 1) s.length

/-- Fuelled loop of `lineBeg`. -/
def lineBegGo (s : Buffer) : Nat → Nat → Nat
  | 0, q => q
  | fuel + 1, q =>
      if 0 < q ∧ chAt s (q - 1) ≠ '\n' then lineBegGo s fuel (q - 1) else q

/-- Offset of the beginning of the line containing `q` (elisp
`line-beginning-position`): one past the last newline strictly before `q`,
or `0`. -/
def lineBeg (s : Buffer) (q : Nat) : Nat := lineBegGo s q q

/-! ## Backward blank skip (elisp `skip-chars-backward " \r\t\n"`) -/

/-- Fuelled loop of `skipBackBlank`. -/
def skipBackBlankGo (s : Buffer) : Nat → Nat → Nat
  | 0, p => p
  | fuel + 1, p =>
      if 0 < p ∧ blank4 (chAt s (p - 1)) then skipBackBlankGo s fuel (p - 1)
      else p

/-- Position reached from `e` by skipping the `" \r\t\n"` class backwards. -/
def skipBackBlank (s : Buffer) (e : Nat) : Nat := skipBackBlankGo s e e

/-! ## Pattern library -/

/-- Continuation of `REGEX_HEADLINE_SHORT` after its first `*`: further stars,
then one `\s` character. -/
def afterStars : Buffer → Bool
  | [] => false
  | c :: rest => if c = '*' then afterStars rest else decide (rustWhitespace c)

/-- `REGEX_HEADLINE_SHORT = ^\*+\s`, matched at the start of the given text:
one or more asterisks immediately followed by one whitespace character. -/
def headlineShortMatches : Buffer → Bool
  | [] => false
  | c :: rest => decide (c = '*') && afterStars rest

/-- ASCII lower-casing, the case folding relevant to the `(?i)` flag on the
all-ASCII patterns `TODO`, `DONE`, `:PROPERTIES:`, `:END:`. -/
def asciiLower (c : Char) : Char :=
  if 'A' ≤ c ∧ c ≤ 'Z' then Char.ofNat (c.toNat + 32) else c

/-- ASCII upper-casing (elisp `upcase` on property-drawer keys). -/
def asciiUpper (c : Char) : Char :=
  if 'a' ≤ c ∧ c ≤ 'z' then Char.ofNat (c.toNat - 32) else c

/-- Case-insensitive "text starts with pattern" test. -/
def ciStartsWith : Buffer → Buffer → Bool
  | [], _ => true
  | _ :: _, [] => false
  | p :: ps, c :: cs => decide (asciiLower p = asciiLower c) && ciStartsWith ps cs

/-- Case-insensitive substring search (`Regex::find` of a literal pattern):
true iff the pattern occurs anywhere in the text. -/
def ciContains (pat : Buffer) : Buffer → Bool
  | [] => ciStartsWith pat []
  | c :: rest => ciStartsWith pat (c :: rest) || ciContains pat rest

/-- `TodoKeyword::is_done` from the source: `REGEX_TODO_DONE.find(&self.0)`,
i.e. the keyword contains the hard-coded literal `DONE` case-insensitively
(the regex is `(?i)DONE`). -/
def is_done (kw : Buffer) : Bool := ciContains ("DONE".toList) kw

/-- `REGEX_TODO = (?i)(TODO|DONE)[ \t]` matched at offset `p` of the buffer
(the source calls it through the anchored `capturing_at`).  On a match the
source records the group-1 slice of the input (the keyword as written) and
moves the cursor to the end of the whole match; we return that pair.
Both keywords have length 4, and the whole match adds the one `[ \t]`
character. -/
def regexTodoAt (s : Buffer) (p : Nat) : Option (Buffer × Nat) :=
  if (ciStartsWith ("TODO".toList) (s.drop p) ||
      ciStartsWith ("DONE".toList) (s.drop p)) &&
     decide (blankHT (chAt s (p + 4))) then
    some ((s.drop p).take 4, p + 5)
  else none

/-- `REGEX_HEADLINE_PRIORITY = \[#.\][ \t]*` matched at offset `p` via the
anchored `looking_at`; `.` is any character except newline.  Returns the
cookie character (used by the spec's step 5; the value construction in the
source is unfinished) and the end of the whole match, past the trailing
horizontal whitespace. -/
def regexPriorityAt (s : Buffer) (p : Nat) : Option (Char × Nat) :=
  if chAt s p = '[' ∧ chAt s (p + 1) = '#' ∧ chAt s (p + 2) ≠ '\n' ∧
     chAt s (p + 3) = ']' ∧ p + 3 < s.length then
    some (chAt s (p + 2), skipForward blankHT s (p + 4) s.length)
  else none

/-- `REGEX_PLANNING_LINE = ^[ \t]*((?:CLOSED|DEADLINE|SCHEDULED):)` — the line
is a planning line iff after optional horizontal whitespace it starts with one
of the three exact, case-sensitive keyword-plus-colon literals. -/
def planningLineMatches (line : Buffer) : Bool :=
  let t := line.dropWhile (fun c => decide (blankHT c))
  ("CLOSED:".toList.isPrefixOf t) || ("DEADLINE:".toList.isPrefixOf t) ||
    ("SCHEDULED:".toList.isPrefixOf t)

/-- The tag character class `[[:alnum:]_@#%:]` of the trailing-tags pattern. -/
def tagChar (c : Char) : Prop :=
  c.isAlphanum = true ∨ c = '_' ∨ c = '@' ∨ c = '#' ∨ c = '%' ∨ c = ':'

instance : DecidablePred tagChar := fun c => by unfold tagChar; infer_instance

/-- Drop the trailing run of characters satisfying `p`. -/
def dropTrailing (p : Char → Prop) [DecidablePred p] (l : Buffer) : Buffer :=
  (l.reverse.dropWhile (fun c => decide (p c))).reverse

/-- `org-trim`: strip leading and trailing `[ \t\n\r]` runs. -/
def orgTrim (l : Buffer) : Buffer :=
  dropTrailing orgTrimWS (l.dropWhile (fun c => decide (orgTrimWS c)))

/-- Does the region `[q, le)` match the tag pattern
`[ \t]+\(:[[:alnum:]_@#%:]+:\)[ \t]*$` exactly (with `$` at `le`, the end of
the headline line)?  Returns the captured group: the colon-delimited tag run
from its opening to its closing colon. -/
def tagMatchAt (s : Buffer) (q le : Nat) : Option Buffer :=
  let w := skipForward blankHT s q le
  if w = q then none
  else
    match (s.drop w).take (le - w) with
    | ':' :: t =>
        let t2 := dropTrailing blankHT t
        if t2.getLast? = some ':' ∧ t2.dropLast ≠ [] ∧
           (∀ c ∈ t2.dropLast, tagChar c) then
          some (':' :: t2)
        else none
    | _ => none

/-- Fuelled loop of `findTagMatch`. -/
def findTagMatchGo (s : Buffer) (le : Nat) : Nat → Nat → Option (Nat × Buffer)
  | 0, _ => none
  | fuel + 1, q =>
      if q < le then
        match tagMatchAt s q le with
        | some g => some (q, g)
        | none => findTagMatchGo s le fuel (q + 1)
      else none

/-- The bounded `re-search-forward` of the tag pattern: the leftmost offset
`q ≥ start` where the tag pattern matches through to `le`, with the captured
group.  `none` reproduces the no-match outcome (the elisp call then leaves
point at the line end via the `'move` flag). -/
def findTagMatch (s : Buffer) (start le : Nat) : Option (Nat × Buffer) :=
  findTagMatchGo s le (le + 1 - start) start

/-- `org-split-string` of a tag group on `":"`: the colon-separated segments
with empty segments discarded. -/
def splitOnColon : Buffer → List Buffer
  | [] => [[]]
  | c :: rest =>
      let r := splitOnColon rest
      if c = ':' then [] :: r
      else
        match r with
        | [] => [[c]]
        | x :: xs => (c :: x) :: xs

/-- Split the captured tag group into the tag list, discarding empties. -/
def splitTags (g : Buffer) : List Buffer :=
  (splitOnColon g).filter (fun t => decide (t ≠ []))

/-! ## Configuration and data model -/

/-- Modelled from the spec: the user-supplied configuration (§6) — the ordered
valid-TODO-keyword set, the done-keyword subset, the archive-tag literal, the
footnote-section literal, the comment-marker literal and the odd-levels-only
flag.  The source resolves none of these yet (its keyword regexes are
hard-coded, see `REGEX_TODO`). -/
structure Config where
  todo_keywords : List Buffer
  done_keywords : List Buffer
  archive_tag : Buffer
  footnote_section : Buffer
  comment_string : Buffer
  odd_levels_only : Bool
deriving Repr, DecidableEq

/-- The org defaults for the configured literals. -/
def defaultConfig : Config :=
  { todo_keywords := ["TODO".toList, "DONE".toList]
    done_keywords := ["DONE".toList]
    archive_tag := "ARCHIVE".toList
    footnote_section := "Footnotes".toList
    comment_string := "COMMENT".toList
    odd_levels_only := false }

/-- The default configuration with the odd-levels-only flag set. -/
def oddLevelsConfig : Config := { defaultConfig with odd_levels_only := true }

/-- Modelled from the spec: `org-reduced-level` — the headline assembly after
the raw star count is missing from the source (the function body ends in
`unimplemented!()`); the spec says the stored level is the identity of the raw
count by default and `ceil(raw/2)` under odd-levels-only configuration. -/
def org_reduced_level (cfg : Config) (raw : Nat) : Nat :=
  if cfg.odd_levels_only then (raw + 1) / 2 else raw

/-- `MalformedHeadline`: the precondition-violation error of the headline
parser contract. -/
inductive ParseError where
  | MalformedHeadline
deriving Repr, DecidableEq

/-- The headline entity together with its syntax-node offsets
(`HeadlineData` plus `SyntaxNode` of the source; the `end` offset is named
`end_pos` because `end` is reserved in Lean). -/
structure HeadlineNode where
  begin_pos : Nat
  end_pos : Nat
  contents_begin : Option Nat
  contents_end : Option Nat
  post_affiliated : Nat
  level : Nat
  pre_blank : Nat
  post_blank : Nat
  priority : Option Char
  tags : List Buffer
  todo_keyword : Option Buffer
  raw_value : Buffer
  title : Option Buffer
  archivedp : Bool
  commentedp : Bool
  footnote_section_p : Bool
  quotedp : Bool
deriving Repr, DecidableEq

/-! ## Subtree end and contents bounds

Modelled from the spec (§4.2 steps 12–14): everything below the title
extraction is missing from the source (`unimplemented!()`); the mirrored elisp
in the source comments guides the same computations. -/

/-- The raw star run at offset `pos`, bounded by the end of the buffer. -/
def starRunAt (s : Buffer) (pos : Nat) : Nat :=
  skipForward (fun c => c = '*') s pos s.length - pos

instance : DecidablePred (fun c : Char => c = '*') := fun c => by infer_instance

/-- Is `pos` the start of a headline line whose reduced level is at most
`level`?  Used to find the end of the subtree. -/
def headlineLEAt (cfg : Config) (s : Buffer) (pos level : Nat) : Bool :=
  headlineShortMatches (s.drop pos) &&
    decide (org_reduced_level cfg (starRunAt s pos) ≤ level)

/-- Fuelled loop of `subtreeEndFrom`, visiting successive line starts. -/
def subtreeEndGo (cfg : Config) (s : Buffer) (level : Nat) : Nat → Nat → Nat
  | 0, _ => s.length
  | fuel + 1, pos =>
      if pos < s.length then
        (if headlineLEAt cfg s pos level then pos
         else subtreeEndGo cfg s level fuel (nextLineStart s pos))
      else s.length

/-- Modelled from the spec: the subtree end — the offset of the next headline
whose reduced level is ≤ `level`, starting the scan at line start `pos`, or
the buffer end if there is none (step 12; elisp `org-end-of-subtree`). -/
def subtreeEndFrom (cfg : Config) (s : Buffer) (level pos : Nat) : Nat :=
  subtreeEndGo cfg s level (s.length + 1) pos

/-- The raw star count of the headline opening at `b`, bounded by `lim`
(source line 246: `cursor.skip_chars_forward("*", Some(limit))`). -/
def headlineStars (s : Buffer) (b lim : Nat) : Nat :=
  skipForward (fun c => c = '*') s b lim - b

/-- The `end` offset of the headline: subtree end bounded by `limit`
(elisp `(min (org-end-of-subtree t t) limit)`). -/
def headlineEndPos (cfg : Config) (s : Buffer) (b lim : Nat) : Nat :=
  min (subtreeEndFrom cfg s
        (org_reduced_level cfg (headlineStars s b lim)) (nextLineStart s b)) lim

/-- Modelled from the spec (step 13): the scan position for `contents_begin` —
one line past the headline start, then blank characters skipped up to `e`. -/
def contentsScanPos (s : Buffer) (b e : Nat) : Nat :=
  skipForward blank4 s (min (nextLineStart s b) e) e

/-- Modelled from the spec (step 13): `contents_begin` — absent when the blank
skip reaches `e`, else the beginning of the line of the first non-blank
character. -/
def contentsBeginVal (s : Buffer) (b e : Nat) : Option Nat :=
  if contentsScanPos s b e = e then none
  else some (lineBeg s (contentsScanPos s b e))

/-- Modelled from the spec (step 14): `contents_end` — present only with
`contents_begin`; from `e`, skip blanks backwards and take the start of the
following line, bounded by `e` (the spec's §8 invariant bounds it by `end`). -/
def contentsEndVal (s : Buffer) (b e : Nat) : Option Nat :=
  match contentsBeginVal s b e with
  | none => none
  | some _ => some (min (nextLineStart s (skipBackBlank s e)) e)

/-- Number of newline characters in `[a, b)`. -/
def countNL (s : Buffer) (a b : Nat) : Nat :=
  (((s.drop a).take (b - a)).filter (fun c => decide (c = '\n'))).length

/-- elisp `count-lines` between two offsets: newline count, plus one for a
final partial line. -/
def countLines (s : Buffer) (a b : Nat) : Nat :=
  countNL s a b + (if a < b ∧ chAt s (b - 1) ≠ '\n' then 1 else 0)

/-! ## The headline parser -/

/-- Modelled from the spec (step 6): the configured comment-marker literal as a
whole token at `p` — followed by horizontal whitespace, a newline or the buffer
end, "not merely as a prefix of a longer word" (§3).  On a match the cursor
advances past the marker and the following horizontal whitespace.  The source
reaches this step only in its mirrored elisp. -/
def commentMatchAt (cfg : Config) (s : Buffer) (p : Nat) : Option Nat :=
  let q := p + cfg.comment_string.length
  if cfg.comment_string.isPrefixOf (s.drop p) = true ∧
     (blankHT (chAt s q) ∨ chAt s q = '\n' ∨ q ≥ s.length) then
    some (skipForward blankHT s q s.length)
  else none

/-- The headline entity assembled by `headlineParser` for a buffer `s`, a
cursor at `b`, and a bound `lim`.  Star counting, the TODO-keyword match
(`REGEX_TODO` via `capturing_at`) and the priority-cookie match
(`REGEX_HEADLINE_PRIORITY` via `looking_at`) follow the source; the title,
tags, classification flags and all offsets are modelled from the spec
(§4.2 steps 6–15) and the elisp mirrored in the source, the source being
`unimplemented!()` from the priority value on. -/
def headline_core (cfg : Config) (s : Buffer) (b lim : Nat)
    (raw_secondary_p : Bool) : HeadlineNode :=
  let stars := headlineStars s b lim
  let level := org_reduced_level cfg stars
  let p2 := skipForward blankHT s (b + stars) lim
  let todoRes := regexTodoAt s p2
  let p3 := match todoRes with
    | some (_, e2) => skipForward blankHT s e2 lim
    | none => p2
  let prioRes := regexPriorityAt s p3
  let p4 := match prioRes with
    | some (_, e3) => e3
    | none => p3
  let commentRes := commentMatchAt cfg s p4
  let title_start := commentRes.getD p4
  let le := lineEnd s title_start
  let tagRes := findTagMatch s title_start le
  let title_end := match tagRes with | some (q, _) => q | none => le
  let tagsAll := match tagRes with | some (_, g) => splitTags g | none => []
  let raw_value := orgTrim ((s.drop title_start).take (title_end - title_start))
  let e := headlineEndPos cfg s b lim
  let cb := contentsBeginVal s b e
  let ce := contentsEndVal s b e
  { begin_pos := b
    end_pos := e
    contents_begin := cb
    contents_end := ce
    post_affiliated := b
    level := level
    pre_blank := match cb with | none => 0 | some c => countNL s b c - 1
    post_blank := match ce with
      | some d => countLines s d e
      | none => countLines s b e - 1
    priority := prioRes.map Prod.fst
    tags := tagsAll.filter (fun t => decide (t ≠ cfg.archive_tag))
    todo_keyword := todoRes.map Prod.fst
    raw_value := raw_value
    title := if raw_secondary_p then some raw_value else none
    archivedp := decide (cfg.archive_tag ∈ tagsAll)
    commentedp := commentRes.isSome
    footnote_section_p := decide (raw_value = cfg.footnote_section)
    quotedp := false }

/-- The fields of a headline named by the spec's worked examples; used to
state concrete-input theorems as a single projection of the parser output. -/
structure HeadlineSummary where
  level : Nat
  todo_keyword : Option Buffer
  priority : Option Char
  commentedp : Bool
  raw_value : Buffer
  tags : List Buffer
deriving Repr, DecidableEq

/-- Project a headline to the fields of the spec's worked examples. -/
def HeadlineNode.summary (h : HeadlineNode) : HeadlineSummary :=
  { level := h.level, todo_keyword := h.todo_keyword, priority := h.priority
    commentedp := h.commentedp, raw_value := h.raw_value, tags := h.tags }

/-- `Parser::headlineParser`, with the spec's precondition contract: when the
cursor is not at a valid headline opening (`REGEX_HEADLINE_SHORT` fails at the
cursor), the call fails with `MalformedHeadline` and no entity is produced
(modelled from the spec — the source skeleton has no error path yet);
otherwise the assembled headline entity is returned. -/
def headlineParser (cfg : Config) (s : Buffer) (b lim : Nat)
    (raw_secondary_p : Bool) : Except ParseError HeadlineNode :=
  if headlineShortMatches (s.drop b) then
    Except.ok (headline_core cfg s b lim raw_secondary_p)
  else Except.error ParseError.MalformedHeadline

/-! ## Properties of the scanners and line geometry -/

/-! ## Planning parser -/

/-- The three planning fields of a headline; the timestamp references are
opaque entities of the external Timestamp Parser, modelled as the buffer
offset just past the recognized keyword-plus-colon. -/
structure PlanningFields where
  closed : Option Nat
  deadline : Option Nat
  scheduled : Option Nat
deriving Repr, DecidableEq

/-- Offset of the first occurrence of `pat` in the text, if any. -/
def findSub (pat : Buffer) : Buffer → Option Nat
  | [] => if pat.isPrefixOf ([] : Buffer) then some 0 else none
  | c :: rest =>
      if pat.isPrefixOf (c :: rest) then some 0
      else (findSub pat rest).map (· + 1)

/-- Modelled from the spec (§4.3): the planning parser — only its recognition
regex `REGEX_PLANNING_LINE` exists in the source.  A line recognized as a
planning line yields, for each of the three exact keywords it carries, a
timestamp reference starting just past the keyword (timestamp parsing is an
external collaborator); a line that is not a planning line is a normal
non-error outcome leaving all three fields unset. -/
def planningParser (line : Buffer) : PlanningFields :=
  if planningLineMatches line then
    { closed := (findSub ("CLOSED:".toList) line).map (· + 7)
      deadline := (findSub ("DEADLINE:".toList) line).map (· + 9)
      scheduled := (findSub ("SCHEDULED:".toList) line).map (· + 10) }
  else { closed := none, deadline := none, scheduled := none }

/-! ## Property drawer / node properties -/

/-- `NodePropertyData` from the source: one key/value pair of a property
drawer. -/
structure NodePropertyData where
  key : Buffer
  value : Buffer
deriving Repr, DecidableEq

/-- Modelled from the spec (§4.4): one interior drawer line of shape
`:KEY: VALUE` — `KEY` nonempty with no whitespace or colon; the stored key is
upper-cased with a colon prepended (the plist convention documented on
`headlineParser`), the value is the raw remainder, trimmed.  A line whose key
lacks the closing colon yields `none` (malformed).  The node-property parser
is an unimplemented stub in the source. -/
def parseNodeProp (l : Buffer) : Option NodePropertyData :=
  match l.dropWhile (fun c => decide (blankHT c)) with
  | ':' :: r =>
      let key := r.takeWhile (fun c => decide (¬ blankHT c ∧ c ≠ ':'))
      if key = [] then none
      else
        match r.drop key.length with
        | ':' :: v => some { key := ':' :: key.map asciiUpper, value := orgTrim v }
        | _ => none
  | _ => none

/-- Modelled from the spec (§4.4, §7): the interior lines of a drawer, in
order; a malformed interior line is skipped rather than aborting the drawer
(tolerant-parsing policy). -/
def drawerBody : List Buffer → List NodePropertyData
  | [] => []
  | l :: ls =>
      match parseNodeProp l with
      | some p => p :: drawerBody ls
      | none => drawerBody ls

/-- The closing `[ \t]*:END:[ \t]*` line of `REGEX_PROPERTY_DRAWER`
(case-insensitive). -/
def isEndLine (l : Buffer) : Bool :=
  let t := l.dropWhile (fun c => decide (blankHT c))
  ciStartsWith (":END:".toList) t &&
    (t.drop 5).all (fun c => decide (blankHT c))

/-- The opening `[ \t]*:PROPERTIES:[ \t]*` line of `REGEX_PROPERTY_DRAWER`
(case-insensitive). -/
def isPropOpenLine (l : Buffer) : Bool :=
  let t := l.dropWhile (fun c => decide (blankHT c))
  ciStartsWith (":PROPERTIES:".toList) t &&
    (t.drop 12).all (fun c => decide (blankHT c))

/-- The interior lines strictly before the first `:END:` line, or `none` when
no `:END:` line follows (then there is no drawer). -/
def splitUntilEnd : List Buffer → Option (List Buffer)
  | [] => none
  | l :: ls => if isEndLine l then some [] else (splitUntilEnd ls).map (l :: ·)

/-- Modelled from the spec (§4.4): `propertyDrawerParser` — an unimplemented
stub in the source, only `REGEX_PROPERTY_DRAWER` exists.  The drawer opens
with a case-insensitive `:PROPERTIES:` line, closes with a case-insensitive
`:END:` line, and yields the ordered node properties of its interior lines;
absent delimiters mean no drawer (`none`), a normal outcome. -/
def propertyDrawerParser (ls : List Buffer) : Option (List NodePropertyData) :=
  match ls with
  | [] => none
  | first :: rest =>
      if isPropOpenLine first then (splitUntilEnd rest).map drawerBody
      else none

theorem skipForwardGo_ge (p : Char → Prop) [DecidablePred p] (s : Buffer)
    (lim : Nat) : ∀ fuel i, i ≤ skipForwardGo p s lim fuel i := by
  intro fuel
  induction fuel with
  | zero => intro i; simp [skipForwardGo]
  | succ n ih =>
      intro i
      unfold skipForwardGo
      split
      · exact le_trans (Nat.le_succ i) (ih (i + 1))
      · exact le_refl i

theorem skipForward_ge (p : Char → Prop) [DecidablePred p] (s : Buffer)
    (i lim : Nat) : i ≤ skipForward p s i lim :=
  skipForwardGo_ge p s lim (lim + 1) i

theorem skipForwardGo_le (p : Char → Prop) [DecidablePred p] (s : Buffer)
    (lim : Nat) : ∀ fuel i, i ≤ lim → skipForwardGo p s lim fuel i ≤ lim := by
  intro fuel
  induction fuel with
  | zero => intro i h; simpa [skipForwardGo] using h
  | succ n ih =>
      intro i h
      unfold skipForwardGo
      split
      · next hguard => exact ih (i + 1) hguard.1
      · exact h

theorem skipForward_le (p : Char → Prop) [DecidablePred p] (s : Buffer)
    (i lim : Nat) (h : i ≤ lim) : skipForward p s i lim ≤ lim :=
  skipForwardGo_le p s lim (lim + 1) i h

/-- When the skip stops strictly inside both bounds, it stopped on a character
that fails the class. -/
theorem skipForwardGo_stop (p : Char → Prop) [DecidablePred p] (s : Buffer)
    (lim : Nat) : ∀ fuel i, lim - i < fuel →
    skipForwardGo p s lim fuel i < lim →
    skipForwardGo p s lim fuel i < s.length →
    ¬ p (chAt s (skipForwardGo p s lim fuel i)) := by
  intro fuel
  induction fuel with
  | zero => intro i h; omega
  | succ n ih =>
      intro i hfuel h1 h2
      unfold skipForwardGo at h1 h2 ⊢
      by_cases hguard : i < lim ∧ i < s.length ∧ p (chAt s i)
      · rw [if_pos hguard] at h1 h2 ⊢
        have : lim - (i + 1) < n := by omega
        exact ih (i + 1) this h1 h2
      · rw [if_neg hguard] at h1 h2 ⊢
        intro hp
        exact hguard ⟨h1, h2, hp⟩

theorem skipForward_stop (p : Char → Prop) [DecidablePred p] (s : Buffer)
    (i lim : Nat) (h1 : skipForward p s i lim < lim)
    (h2 : skipForward p s i lim < s.length) :
    ¬ p (chAt s (skipForward p s i lim)) :=
  skipForwardGo_stop p s lim (lim + 1) i (by omega) h1 h2

/-- Every character strictly before the stopping point satisfies the class. -/
theorem skipForwardGo_sat (p : Char → Prop) [DecidablePred p] (s : Buffer)
    (lim : Nat) : ∀ fuel i j, i ≤ j → j < skipForwardGo p s lim fuel i →
    p (chAt s j) := by
  intro fuel
  induction fuel with
  | zero => intro i j hij hj; simp [skipForwardGo] at hj; omega
  | succ n ih =>
      intro i j hij hj
      unfold skipForwardGo at hj
      split at hj
      · next hguard =>
          rcases Nat.eq_or_lt_of_le hij with h | h
          · exact h ▸ hguard.2.2
          · exact ih (i + 1) j h hj
      · omega

theorem skipForward_sat (p : Char → Prop) [DecidablePred p] (s : Buffer)
    (i lim j : Nat) (hij : i ≤ j) (hj : j < skipForward p s i lim) :
    p (chAt s j) :=
  skipForwardGo_sat p s lim (lim + 1) i j hij hj

/-- Characterization of `skipForward` used for symbolic star counting. -/
theorem skipForwardGo_eq (p : Char → Prop) [DecidablePred p] (s : Buffer)
    (lim : Nat) : ∀ fuel i r, i ≤ r → r - i < fuel →
    (∀ j, i ≤ j → j < r → (j < lim ∧ j < s.length ∧ p (chAt s j))) →
    ¬ (r < lim ∧ r < s.length ∧ p (chAt s r)) →
    skipForwardGo p s lim fuel i = r := by
  intro fuel
  induction fuel with
  | zero => intro i r h1 h2; omega
  | succ n ih =>
      intro i r hir hfuel hall hstop
      unfold skipForwardGo
      rcases Nat.eq_or_lt_of_le hir with h | h
      · subst h
        split
        · next hguard => exact absurd hguard hstop
        · rfl
      · have hgi := hall i (le_refl i) h
        rw [if_pos hgi]
        exact ih (i + 1) r h (by omega) (fun j hj hjr => hall j (by omega) hjr)
          hstop

theorem skipForward_eq (p : Char → Prop) [DecidablePred p] (s : Buffer)
    (i lim r : Nat) (hir : i ≤ r) (hr : r ≤ lim + i)
    (hall : ∀ j, i ≤ j → j < r → (j < lim ∧ j < s.length ∧ p (chAt s j)))
    (hstop : ¬ (r < lim ∧ r < s.length ∧ p (chAt s r))) :
    skipForward p s i lim = r :=
  skipForwardGo_eq p s lim (lim + 1) i r hir (by omega) hall hstop

theorem lineEndGo_ge (s : Buffer) : ∀ fuel i, i ≤ lineEndGo s fuel i := by
  intro fuel
  induction fuel with
  | zero => intro i; simp [lineEndGo]
  | succ n ih =>
      intro i
      unfold lineEndGo
      split
      · split
        · exact le_refl i
        · exact le_trans (Nat.le_succ i) (ih (i + 1))
      · exact le_refl i

theorem lineEnd_ge (s : Buffer) (i : Nat) : i ≤ lineEnd s i :=
  lineEndGo_ge s (s.length + 1) i

theorem lineEndGo_le (s : Buffer) :
    ∀ fuel i, i ≤ s.length → lineEndGo s fuel i ≤ s.length := by
  intro fuel
  induction fuel with
  | zero => intro i h; simpa [lineEndGo] using h
  | succ n ih =>
      intro i h
      unfold lineEndGo
      split
      · next hi =>
          split
          · exact h
          · exact ih (i + 1) hi
      · exact h

theorem lineEnd_le (s : Buffer) (i : Nat) (h : i ≤ s.length) :
    lineEnd s i ≤ s.length :=
  lineEndGo_le s (s.length + 1) i h

/-- A line end strictly inside the buffer is a newline character. -/
theorem lineEndGo_newline (s : Buffer) :
    ∀ fuel i, s.length - i < fuel → lineEndGo s fuel i < s.length →
    chAt s (lineEndGo s fuel i) = '\n' := by
  intro fuel
  induction fuel with
  | zero => intro i h; omega
  | succ n ih =>
      intro i hfuel h
      unfold lineEndGo at h ⊢
      by_cases hi : i < s.length
      · rw [if_pos hi] at h ⊢
        by_cases hnl : chAt s i = '\n'
        · rwa [if_pos hnl]
        · rw [if_neg hnl] at h ⊢
          exact ih (i + 1) (by omega) h
      · rw [if_neg hi] at h
        omega

theorem lineEnd_newline (s : Buffer) (i : Nat) (h : lineEnd s i < s.length) :
    chAt s (lineEnd s i) = '\n' :=
  lineEndGo_newline s (s.length + 1) i (by omega) h

theorem nextLineStart_le (s : Buffer) (i : Nat) :
    nextLineStart s i ≤ s.length := min_le_right _ _

theorem lt_nextLineStart (s : Buffer) (i : Nat) (h : i < s.length) :
    i < nextLineStart s i := by
  unfold nextLineStart
  have h1 := lineEnd_ge s i
  omega

theorem lineBegGo_le (s : Buffer) : ∀ fuel q, lineBegGo s fuel q ≤ q := by
  intro fuel
  induction fuel with
  | zero => intro q; simp [lineBegGo]
  | succ n ih =>
      intro q
      unfold lineBegGo
      split
      · next h => exact le_trans (ih (q - 1)) (by omega)
      · exact le_refl q

theorem lineBeg_le (s : Buffer) (q : Nat) : lineBeg s q ≤ q :=
  lineBegGo_le s q q

/-- Any newline strictly before `q` lies strictly before the beginning of the
line containing `q`. -/
theorem lineBegGo_gt_newline (s : Buffer) :
    ∀ fuel q i, i < q → chAt s i = '\n' → q - (i + 1) < fuel →
    i < lineBegGo s fuel q := by
  intro fuel
  induction fuel with
  | zero => intro q i h1 h2 h3; omega
  | succ n ih =>
      intro q i hiq hnl hfuel
      unfold lineBegGo
      by_cases hg : 0 < q ∧ chAt s (q - 1) ≠ '\n'
      · rw [if_pos hg]
        have hne : i ≠ q - 1 := fun he => hg.2 (he ▸ hnl)
        exact ih (q - 1) i (by omega) hnl (by omega)
      · rw [if_neg hg]
        exact hiq

theorem lineBeg_gt_newline (s : Buffer) (q i : Nat) (hiq : i < q)
    (hnl : chAt s i = '\n') : i < lineBeg s q :=
  lineBegGo_gt_newline s q q i hiq hnl (by omega)

theorem skipBackBlankGo_le (s : Buffer) :
    ∀ fuel p, skipBackBlankGo s fuel p ≤ p := by
  intro fuel
  induction fuel with
  | zero => intro p; simp [skipBackBlankGo]
  | succ n ih =>
      intro p
      unfold skipBackBlankGo
      split
      · next h => exact le_trans (ih (p - 1)) (by omega)
      · exact le_refl p

theorem skipBackBlank_le (s : Buffer) (e : Nat) : skipBackBlank s e ≤ e :=
  skipBackBlankGo_le s e e

/-- Every character between the stopping point and the starting point of the
backward skip is blank. -/
theorem skipBackBlankGo_sat (s : Buffer) :
    ∀ fuel p i, skipBackBlankGo s fuel p ≤ i → i < p → blank4 (chAt s i) := by
  intro fuel
  induction fuel with
  | zero => intro p i h1 h2; simp [skipBackBlankGo] at h1; omega
  | succ n ih =>
      intro p i h1 h2
      unfold skipBackBlankGo at h1
      by_cases hg : 0 < p ∧ blank4 (chAt s (p - 1))
      · rw [if_pos hg] at h1
        rcases Nat.lt_or_ge i (p - 1) with h | h
        · exact ih (p - 1) i h1 h
        · have : i = p - 1 := by omega
          exact this ▸ hg.2
      · rw [if_neg hg] at h1
        omega

theorem skipBackBlank_sat (s : Buffer) (e i : Nat)
    (h1 : skipBackBlank s e ≤ i) (h2 : i < e) : blank4 (chAt s i) :=
  skipBackBlankGo_sat s e e i h1 h2

theorem subtreeEndGo_le (cfg : Config) (s : Buffer) (level : Nat) :
    ∀ fuel pos, subtreeEndGo cfg s level fuel pos ≤ s.length := by
  intro fuel
  induction fuel with
  | zero => intro pos; simp [subtreeEndGo]
  | succ n ih =>
      intro pos
      unfold subtreeEndGo
      split
      · next h =>
          split
          · exact le_of_lt h
          · exact ih (nextLineStart s pos)
      · exact le_refl _

theorem subtreeEndFrom_le (cfg : Config) (s : Buffer) (level pos : Nat) :
    subtreeEndFrom cfg s level pos ≤ s.length :=
  subtreeEndGo_le cfg s level (s.length + 1) pos

theorem headlineEndPos_le_length (cfg : Config) (s : Buffer) (b lim : Nat) :
    headlineEndPos cfg s b lim ≤ s.length :=
  le_trans (min_le_left _ _) (subtreeEndFrom_le cfg s _ _)

/-! ## Buffer index helpers -/

theorem chAt_cons_succ (c : Char) (l : Buffer) (j : Nat) :
    chAt (c :: l) (j + 1) = chAt l j := by
  simp [chAt]

theorem chAt_replicate_append_lt (n : Nat) (a : Char) (l2 : Buffer) :
    ∀ j, j < n → chAt (List.replicate n a ++ l2) j = a := by
  induction n with
  | zero => intro j h; omega
  | succ m ih =>
      intro j hj
      rw [List.replicate_succ, List.cons_append]
      cases j with
      | zero => rfl
      | succ j => rw [chAt_cons_succ]; exact ih j (by omega)

theorem chAt_replicate_append_self (n : Nat) (a c : Char) (l2 : Buffer) :
    chAt (List.replicate n a ++ c :: l2) n = c := by
  induction n with
  | zero => rfl
  | succ m ih =>
      rw [List.replicate_succ, List.cons_append, chAt_cons_succ]
      exact ih

/-! ## The headline-opening pattern on a star run -/

theorem afterStars_replicate (rest : Buffer) :
    ∀ m, afterStars (List.replicate m '*' ++ ' ' :: rest) = true := by
  intro m
  induction m with
  | zero => simp [afterStars]; decide
  | succ k ih =>
      rw [List.replicate_succ, List.cons_append]
      simpa [afterStars] using ih

theorem headlineShortMatches_replicate (n : Nat) (rest : Buffer)
    (hn : 1 ≤ n) :
    headlineShortMatches (List.replicate n '*' ++ ' ' :: rest) = true := by
  cases n with
  | zero => omega
  | succ m =>
      rw [List.replicate_succ, List.cons_append]
      simpa [headlineShortMatches] using afterStars_replicate rest m

/-! ## Characterization of the headline-opening pattern -/

theorem afterStars_iff (t : Buffer) :
    afterStars t = true ↔
      ∃ m c rest, rustWhitespace c ∧ t = List.replicate m '*' ++ c :: rest := by
  induction t with
  | nil =>
      constructor
      · intro h; exact absurd h (by decide)
      · rintro ⟨m, c, rest, hc, he⟩
        exact absurd he.symm (by simp)
  | cons a t ih =>
      by_cases ha : a = '*'
      · subst ha
        rw [show afterStars ('*' :: t) = afterStars t by simp [afterStars]]
        constructor
        · intro h
          obtain ⟨m, c, rest, hc, he⟩ := ih.mp h
          exact ⟨m + 1, c, rest, hc, by
            rw [List.replicate_succ, List.cons_append, he]⟩
        · rintro ⟨m, c, rest, hc, he⟩
          cases m with
          | zero =>
              simp only [List.replicate, List.nil_append] at he
              injection he with h1 h2
              subst h1
              exact absurd hc (by decide)
          | succ k =>
              rw [List.replicate_succ, List.cons_append] at he
              injection he with h1 h2
              exact ih.mpr ⟨k, c, rest, hc, h2⟩
      · rw [show afterStars (a :: t) = decide (rustWhitespace a) by
          simp [afterStars, ha]]
        constructor
        · intro h
          exact ⟨0, a, t, of_decide_eq_true h, by simp⟩
        · rintro ⟨m, c, rest, hc, he⟩
          cases m with
          | zero =>
              simp only [List.replicate, List.nil_append] at he
              injection he with h1 h2
              subst h1
              exact decide_eq_true hc
          | succ k =>
              rw [List.replicate_succ, List.cons_append] at he
              injection he with h1 h2
              exact absurd h1 ha

theorem headlineShortMatches_iff (t : Buffer) :
    headlineShortMatches t = true ↔
      ∃ n c rest, 1 ≤ n ∧ rustWhitespace c ∧
        t = List.replicate n '*' ++ c :: rest := by
  cases t with
  | nil =>
      constructor
      · intro h; exact absurd h (by decide)
      · rintro ⟨n, c, rest, hn, hc, he⟩
        cases n with
        | zero => omega
        | succ k =>
            rw [List.replicate_succ, List.cons_append] at he
            exact List.noConfusion he
  | cons a t =>
      rw [show headlineShortMatches (a :: t) =
            (decide (a = '*') && afterStars t) from rfl]
      rw [Bool.and_eq_true, decide_eq_true_eq]
      constructor
      · rintro ⟨ha, hs⟩
        subst ha
        obtain ⟨m, c, rest, hc, he⟩ := (afterStars_iff t).mp hs
        exact ⟨m + 1, c, rest, by omega, hc, by
          rw [List.replicate_succ, List.cons_append, he]⟩
      · rintro ⟨n, c, rest, hn, hc, he⟩
        cases n with
        | zero => omega
        | succ k =>
            rw [List.replicate_succ, List.cons_append] at he
            injection he with h1 h2
            exact ⟨h1, (afterStars_iff t).mpr ⟨k, c, rest, hc, h2⟩⟩

/-! ## dropWhile helpers for the planning-line pattern -/

theorem dropWhile_append_of_all (p : Char → Bool) (l1 l2 : Buffer)
    (h : ∀ c ∈ l1, p c = true) :
    (l1 ++ l2).dropWhile p = l2.dropWhile p := by
  induction l1 with
  | nil => rfl
  | cons a l1 ih =>
      rw [List.cons_append, List.dropWhile_cons,
        if_pos (h a (List.mem_cons_self a l1)),
        ih (fun c hc => h c (List.mem_cons_of_mem a hc))]

theorem dropWhile_cons_of_neg (p : Char → Bool) (a : Char) (l : Buffer)
    (h : p a = false) : (a :: l).dropWhile p = a :: l := by
  rw [List.dropWhile_cons, h]
  simp

theorem dropWhile_ws_append (ws : Buffer) (c : Char) (t rest : Buffer)
    (hall : ∀ a ∈ ws, decide (blankHT a) = true)
    (hc : decide (blankHT c) = false) :
    (ws ++ (c :: t) ++ rest).dropWhile (fun a => decide (blankHT a)) =
      (c :: t) ++ rest := by
  rw [List.append_assoc, dropWhile_append_of_all _ ws _ hall, List.cons_append,
    dropWhile_cons_of_neg _ _ _ hc]

/-! ## Claim theorems -/

/-- Claim C1: for the input line `* TODO [#A] COMMENT Title :tag:a2%:`,
`headlineParser` produces a headline with level 1, TODO keyword `TODO`,
priority `A`, commented flag true, raw value `Title`, and the tags
`tag`, `a2%` in that written order. -/
theorem headline_example_c1 :
    Except.map HeadlineNode.summary
      (headlineParser defaultConfig
        ("* TODO [#A] COMMENT Title :tag:a2%:".toList) 0 35 true) =
    Except.ok { level := 1, todo_keyword := some ("TODO".toList),
                priority := some 'A', commentedp := true,
                raw_value := "Title".toList,
                tags := ["tag".toList, "a2%".toList] } := by decide

/-- Claim C2 (code bug): the TODO-keyword match of `headlineParser` is the
hard-coded, case-insensitive `REGEX_TODO = (?i)(TODO|DONE)[ \t]`, not a
case-sensitive match against the configured alternation: on the headline
`* todo x` the parser records the keyword `todo`, which is not among the
configured (case-sensitive) TODO keywords. -/
theorem todo_match_case_insensitive_bug :
    regexTodoAt ("* todo x".toList) 2 = some ("todo".toList, 7) ∧
    Except.map (fun h => h.todo_keyword)
      (headlineParser defaultConfig ("* todo x".toList) 0 8 true) =
      Except.ok (some ("todo".toList)) ∧
    "todo".toList ∉ defaultConfig.todo_keywords := by decide

/-- Claim C3 (code bug): `is_done` searches for the hard-coded literal
`(?i)DONE` inside the keyword instead of consulting the configured
done-keyword subset: `is_done "UNDONE"` is true although `UNDONE` is not a
member of the configured done subset. -/
theorem is_done_hardcoded_bug :
    is_done ("UNDONE".toList) = true ∧
    "UNDONE".toList ∉ defaultConfig.done_keywords := by decide

/-- Claim C6, counterexample: on the input `** DONE` the parser does not
produce the TODO keyword `DONE` with an empty raw value — `REGEX_TODO`
requires a `[ \t]` character after the keyword, so no keyword is recorded and
the text `DONE` becomes the raw value. -/
theorem headline_done_no_keyword_counterexample :
    ¬ (∃ h, headlineParser defaultConfig ("** DONE".toList) 0 7 true =
          Except.ok h ∧
        h.todo_keyword = some ("DONE".toList) ∧ h.raw_value = []) := by
  rintro ⟨h, he, ht, hr⟩
  have h1 : Except.map HeadlineNode.summary
      (headlineParser defaultConfig ("** DONE".toList) 0 7 true) =
      Except.ok h.summary := by rw [he]; rfl
  have h2 : Except.map HeadlineNode.summary
      (headlineParser defaultConfig ("** DONE".toList) 0 7 true) =
      Except.ok { level := 2, todo_keyword := none, priority := none,
                  commentedp := false, raw_value := "DONE".toList,
                  tags := [] } := by decide
  rw [h1] at h2
  have h3 := Except.ok.inj h2
  have h4 : h.todo_keyword = none := congrArg HeadlineSummary.todo_keyword h3
  rw [ht] at h4
  exact Option.noConfusion h4

/-- Claim C6, amended: for the input `** DONE` (no title, tags or trailing
whitespace), `headlineParser` produces level 2, no TODO keyword (the
mandatory whitespace after the keyword is missing), raw value `DONE`, and an
empty tag list. -/
theorem headline_example_c6_amended :
    Except.map HeadlineNode.summary
      (headlineParser defaultConfig ("** DONE".toList) 0 7 true) =
    Except.ok { level := 2, todo_keyword := none, priority := none,
                commentedp := false, raw_value := "DONE".toList,
                tags := [] } := by decide

/-- Claim C4: for every headline, the stored level is the configured
reduction of the raw leading-asterisk count — the identity by default and
`ceil(raw/2) = (raw+1)/2` under odd-levels-only configuration: parsing a
buffer opening with `n ≥ 1` asterisks and a space stores exactly that reduced
level. -/
theorem headline_level_reduction (cfg : Config) (n : Nat) (rest : Buffer)
    (hn : 1 ≤ n) :
    ∃ h, headlineParser cfg (List.replicate n '*' ++ ' ' :: rest) 0
        (n + 1 + rest.length) true = Except.ok h ∧
      h.level = (if cfg.odd_levels_only then (n + 1) / 2 else n) := by
  set s : Buffer := List.replicate n '*' ++ ' ' :: rest with hs
  set lim : Nat := n + 1 + rest.length with hlim
  have hlen : s.length = n + 1 + rest.length := by
    simp [hs, List.length_append, List.length_replicate]
    omega
  have hmatch : headlineShortMatches (s.drop 0) = true := by
    simpa using headlineShortMatches_replicate n rest hn
  have hstars : headlineStars s 0 lim = n := by
    unfold headlineStars
    have := skipForward_eq (fun c => c = '*') s 0 lim n (Nat.zero_le n)
      (by omega)
      (fun j hj hjn => by
        refine ⟨by omega, by omega, ?_⟩
        exact chAt_replicate_append_lt n '*' (' ' :: rest) j hjn)
      (by
        intro hcontra
        have h1 : chAt s n = ' ' := chAt_replicate_append_self n '*' ' ' rest
        rw [h1] at hcontra
        exact absurd hcontra.2.2 (by decide))
    omega
  refine ⟨headline_core cfg s 0 lim true, ?_, ?_⟩
  · unfold headlineParser
    rw [hmatch]
    simp
  · show org_reduced_level cfg (headlineStars s 0 lim) = _
    rw [hstars]
    rfl

/-- Witness for C4: under odd-levels-only configuration, a headline opened by
five asterisks has level 3. -/
theorem headline_level_reduction_witness :
    ∃ h, headlineParser oddLevelsConfig
        (List.replicate 5 '*' ++ ' ' :: ("H".toList)) 0
        (5 + 1 + ("H".toList).length) true = Except.ok h ∧
      h.level = 3 := by
  obtain ⟨h, he, hl⟩ :=
    headline_level_reduction oddLevelsConfig 5 ("H".toList) (by decide)
  exact ⟨h, he, by rw [hl]; rfl⟩

/-- Claim C8: when the cursor is not positioned at a valid headline opening
(the anchored `REGEX_HEADLINE_SHORT` fails at the cursor), `headlineParser`
fails with the `MalformedHeadline` precondition-violation error and returns no
headline entity; the error aborts only that call. -/
theorem headlineParser_precondition (cfg : Config) (s : Buffer) (b lim : Nat)
    (raw_secondary_p : Bool)
    (h : headlineShortMatches (s.drop b) = false) :
    headlineParser cfg s b lim raw_secondary_p =
      Except.error ParseError.MalformedHeadline := by
  simp [headlineParser, h]

/-- Witness for C8: at the buffer `hello`, whose first line is no headline,
the parser fails with `MalformedHeadline`. -/
theorem headlineParser_precondition_witness :
    headlineParser defaultConfig ("hello".toList) 0 5 true =
      Except.error ParseError.MalformedHeadline :=
  headlineParser_precondition defaultConfig _ 0 5 true (by decide)

/-- Claim C10: `REGEX_HEADLINE_SHORT` matches a string iff it begins with one
or more asterisks immediately followed by a whitespace character; consequently
a line consisting solely of asterisks with nothing after them — such as a lone
`*` at the buffer end — is not recognized as a headline opening. -/
theorem headline_short_pattern_c10 :
    (∀ s : Buffer, headlineShortMatches s = true ↔
       ∃ n c rest, 1 ≤ n ∧ rustWhitespace c ∧
         s = List.replicate n '*' ++ c :: rest) ∧
    headlineShortMatches ("*".toList) = false :=
  ⟨headlineShortMatches_iff, by decide⟩

/-- Witness for C10: `** x` is recognized as a headline opening via the
decomposition two stars, a space, and the rest. -/
theorem headline_short_pattern_c10_witness :
    headlineShortMatches ("** x".toList) = true :=
  (headline_short_pattern_c10.1 _).mpr
    ⟨2, ' ', "x".toList, by decide, by decide, by decide⟩

/-- Claim C5: a line is recognized as a planning line iff after optional
leading spaces and tabs it begins with one of the exact case-sensitive
literals `CLOSED:`, `DEADLINE:` or `SCHEDULED:`; for any other line the
closed, deadline and scheduled fields all remain unset and no error is
raised. -/
theorem planning_line_recognition (line : Buffer) :
    (planningLineMatches line = true ↔
      ∃ ws rest, (∀ c ∈ ws, c = ' ' ∨ c = '\t') ∧
        (line = ws ++ "CLOSED:".toList ++ rest ∨
         line = ws ++ "DEADLINE:".toList ++ rest ∨
         line = ws ++ "SCHEDULED:".toList ++ rest)) ∧
    (planningLineMatches line = false →
      planningParser line =
        { closed := none, deadline := none, scheduled := none }) := by
  constructor
  · constructor
    · intro h
      unfold planningLineMatches at h
      rw [Bool.or_eq_true, Bool.or_eq_true] at h
      refine ⟨line.takeWhile (fun c => decide (blankHT c)), ?_⟩
      have hws : ∀ c ∈ line.takeWhile (fun c => decide (blankHT c)),
          c = ' ' ∨ c = '\t' := fun c hc =>
        of_decide_eq_true
          (List.mem_takeWhile_imp (p := fun c => decide (blankHT c)) hc)
      have hsplit := List.takeWhile_append_dropWhile
        (fun c => decide (blankHT c)) (l := line)
      rcases h with (h | h) | h
      · obtain ⟨rest, hrest⟩ := List.isPrefixOf_iff_prefix.mp h
        exact ⟨rest, hws, Or.inl (by rw [List.append_assoc, hrest, hsplit])⟩
      · obtain ⟨rest, hrest⟩ := List.isPrefixOf_iff_prefix.mp h
        exact ⟨rest, hws,
          Or.inr (Or.inl (by rw [List.append_assoc, hrest, hsplit]))⟩
      · obtain ⟨rest, hrest⟩ := List.isPrefixOf_iff_prefix.mp h
        exact ⟨rest, hws,
          Or.inr (Or.inr (by rw [List.append_assoc, hrest, hsplit]))⟩
    · rintro ⟨ws, rest, hws, hcase⟩
      have hall : ∀ c ∈ ws, decide (blankHT c) = true := fun c hc =>
        decide_eq_true (hws c hc)
      rcases hcase with h | h | h <;> subst h <;>
        · show (_ || _ || _) = true
          rw [show ∀ l : Buffer,
                l.dropWhile (fun a => decide (blankHT a)) =
                  List.dropWhile (fun a => decide (blankHT a)) l from
              fun l => rfl]
          first
          | rw [show ("CLOSED:".toList : Buffer) = 'C' :: "LOSED:".toList
                  from rfl,
              dropWhile_ws_append ws 'C' ("LOSED:".toList) rest hall
                (by decide)]
          | rw [show ("DEADLINE:".toList : Buffer) = 'D' :: "EADLINE:".toList
                  from rfl,
              dropWhile_ws_append ws 'D' ("EADLINE:".toList) rest hall
                (by decide)]
          | rw [show ("SCHEDULED:".toList : Buffer) = 'S' :: "CHEDULED:".toList
                  from rfl,
              dropWhile_ws_append ws 'S' ("CHEDULED:".toList) rest hall
                (by decide)]
          simp [ List.isPrefixOf_iff_prefix]
  · intro h
    simp [planningParser, h]

/-- Witness for C5: an ordinary text line is not a planning line, and the
planning parser leaves all three fields unset on it. -/
theorem planning_line_recognition_witness :
    planningParser ("An ordinary line".toList) =
      { closed := none, deadline := none, scheduled := none } :=
  (planning_line_recognition _).2 (by decide)

/-- Splitting the drawer interior at the first `:END:` line. -/
theorem splitUntilEnd_append (xs rest : List Buffer) (endL : Buffer)
    (hxs : ∀ l ∈ xs, isEndLine l = false) (hend : isEndLine endL = true) :
    splitUntilEnd (xs ++ endL :: rest) = some xs := by
  induction xs with
  | nil => simp [splitUntilEnd, hend]
  | cons a xs ih =>
      rw [List.cons_append]
      unfold splitUntilEnd
      rw [hxs a (List.mem_cons_self a xs)]
      rw [ih (fun l hl => hxs l (List.mem_cons_of_mem a hl))]
      rfl

theorem drawerBody_cons (a : Buffer) (ls : List Buffer) :
    drawerBody (a :: ls) =
      match parseNodeProp a with
      | some p => p :: drawerBody ls
      | none => drawerBody ls := rfl

theorem drawerBody_append (xs ys : List Buffer) :
    drawerBody (xs ++ ys) = drawerBody xs ++ drawerBody ys := by
  induction xs with
  | nil => rfl
  | cons a xs ih =>
      rw [List.cons_append, drawerBody_cons, drawerBody_cons]
      cases parseNodeProp a <;> simp [ih]

/-- Claim C9: when a property drawer opens with a `:PROPERTIES:` line and
closes with an `:END:` line, an interior line whose key lacks the closing
colon is skipped while the remaining well-formed `:KEY: VALUE` lines are
still produced as ordered node-property entries; the drawer as a whole is
never aborted by one malformed interior line. -/
theorem property_drawer_malformed_skipped (pre post tail2 : List Buffer)
    (bad : Buffer) (hbad : parseNodeProp bad = none)
    (hbadEnd : isEndLine bad = false)
    (hpre : ∀ l ∈ pre, isEndLine l = false)
    (hpost : ∀ l ∈ post, isEndLine l = false) :
    propertyDrawerParser
        ((":PROPERTIES:".toList) :: ((pre ++ bad :: post) ++
          (":END:".toList) :: tail2)) =
      some (drawerBody pre ++ drawerBody post) := by
  have hnoend : ∀ l ∈ pre ++ bad :: post, isEndLine l = false := by
    intro l hl
    rcases List.mem_append.mp hl with h | h
    · exact hpre l h
    · rcases List.mem_cons.mp h with h | h
      · exact h ▸ hbadEnd
      · exact hpost l h
  rw [show propertyDrawerParser
        ((":PROPERTIES:".toList) :: ((pre ++ bad :: post) ++
          (":END:".toList) :: tail2)) =
      (if isPropOpenLine (":PROPERTIES:".toList) = true then
        Option.map drawerBody
          (splitUntilEnd ((pre ++ bad :: post) ++ (":END:".toList) :: tail2))
      else none) from rfl]
  rw [if_pos (show isPropOpenLine (":PROPERTIES:".toList) = true from
    by decide)]
  rw [splitUntilEnd_append _ _ _ hnoend (by decide)]
  rw [show ∀ x : List Buffer, Option.map drawerBody (some x) =
        some (drawerBody x) from fun x => rfl]
  rw [drawerBody_append]
  rw [show drawerBody (bad :: post) = drawerBody post from by
    rw [drawerBody_cons, hbad]]

/-- Witness for C9: a drawer holding a well-formed `:CUSTOM_ID: foo` line, a
malformed line without the closing key colon, and a well-formed `:OTHER: 2`
line yields the two well-formed entries in order. -/
theorem property_drawer_malformed_skipped_witness :
    propertyDrawerParser
        ((":PROPERTIES:".toList) ::
          (([":CUSTOM_ID: foo".toList] ++
            (":BADKEY no colon".toList) :: [":OTHER: 2".toList]) ++
            (":END:".toList) :: [])) =
      some (drawerBody [":CUSTOM_ID: foo".toList] ++
        drawerBody [":OTHER: 2".toList]) :=
  property_drawer_malformed_skipped _ _ _ _ (by decide) (by decide)
    (by decide) (by decide)

/-! ## Bounds of the contents offsets -/

/-- The content-offset invariant, proved for the offset computations
directly: if the bounding offset `e` lies inside the buffer, `contents_begin`
and `contents_end` are either both absent or satisfy
`b ≤ contents_begin ≤ contents_end ≤ e`. -/
theorem contentsBounds (s : Buffer) (b e : Nat) (he : e ≤ s.length) :
    (contentsBeginVal s b e = none ↔ contentsEndVal s b e = none) ∧
    (∀ c d, contentsBeginVal s b e = some c → contentsEndVal s b e = some d →
      b ≤ c ∧ c ≤ d ∧ d ≤ e) := by
  constructor
  · unfold contentsEndVal
    cases hcb : contentsBeginVal s b e <;> simp [hcb]
  · intro c d hc hd
    have hq := hc
    unfold contentsBeginVal at hq
    by_cases hqe : contentsScanPos s b e = e
    · rw [if_pos hqe] at hq
      exact Option.noConfusion hq
    · rw [if_neg hqe] at hq
      have hcval : c = lineBeg s (contentsScanPos s b e) :=
        (Option.some.inj hq).symm
      set q := contentsScanPos s b e with hqdef
      -- basic bounds on the forward blank scan
      have hi0 : min (nextLineStart s b) e ≤ e := min_le_right _ _
      have hq_ge : min (nextLineStart s b) e ≤ q :=
        skipForward_ge blank4 s (min (nextLineStart s b) e) e
      have hq_le : q ≤ e :=
        skipForward_le blank4 s (min (nextLineStart s b) e) e hi0
      have hq_lt : q < e := lt_of_le_of_ne hq_le hqe
      -- the scan started at the next line start, which is inside the buffer
      have hnls_le : nextLineStart s b ≤ q := by
        rcases Nat.le_total (nextLineStart s b) e with h | h
        · rwa [min_eq_left h] at hq_ge
        · rw [min_eq_right h] at hq_ge
          omega
      have hq_len : q < s.length := by omega
      have hnls_lt : nextLineStart s b < s.length := by omega
      -- hence the headline line ends in a newline strictly before `q`
      have hle_lt : lineEnd s b + 1 ≤ s.length := by
        unfold nextLineStart at hnls_lt
        omega
      have hnls_eq : nextLineStart s b = lineEnd s b + 1 := by
        unfold nextLineStart
        omega
      have hnl : chAt s (lineEnd s b) = '\n' := by
        apply lineEnd_newline
        omega
      have hle_q : lineEnd s b < q := by omega
      -- b ≤ c
      have hbc : b < c := by
        have h1 := lineBeg_gt_newline s q (lineEnd s b) hle_q hnl
        have h2 := lineEnd_ge s b
        omega
      -- d is the clipped next line start after the backward blank skip
      have hdval : d = min (nextLineStart s (skipBackBlank s e)) e := by
        unfold contentsEndVal at hd
        rw [hc] at hd
        exact (Option.some.inj hd).symm
      -- q stopped on a non-blank character, so it lies strictly before the
      -- backward-skip stopping point
      have hqnb : ¬ blank4 (chAt s q) :=
        skipForward_stop blank4 s (min (nextLineStart s b) e) e hq_lt hq_len
      have hqr : q < skipBackBlank s e := by
        by_contra hge
        exact hqnb (skipBackBlank_sat s e q (by omega) hq_lt)
      have hrle : skipBackBlank s e ≤ lineEnd s (skipBackBlank s e) :=
        lineEnd_ge s (skipBackBlank s e)
      have hqd : q < d := by
        rw [hdval]
        unfold nextLineStart
        omega
      have hcq : c ≤ q := hcval ▸ lineBeg_le s q
      exact ⟨by omega, by omega, hdval ▸ min_le_right _ _⟩

/-- Claim C7: for every successfully parsed headline, when contents exist the
returned offsets satisfy `begin ≤ contents_begin ≤ contents_end ≤ end`; when
no contents exist, `contents_begin` and `contents_end` are both absent. -/
theorem headline_contents_offsets (cfg : Config) (s : Buffer) (b lim : Nat)
    (raw_secondary_p : Bool) (h : HeadlineNode)
    (hok : headlineParser cfg s b lim raw_secondary_p = Except.ok h) :
    (h.contents_begin = none ↔ h.contents_end = none) ∧
    (∀ c d, h.contents_begin = some c → h.contents_end = some d →
      h.begin_pos ≤ c ∧ c ≤ d ∧ d ≤ h.end_pos) := by
  unfold headlineParser at hok
  by_cases hm : headlineShortMatches (s.drop b) = true
  · rw [if_pos hm] at hok
    have hh : headline_core cfg s b lim raw_secondary_p = h :=
      Except.ok.inj hok
    subst hh
    exact contentsBounds s b (headlineEndPos cfg s b lim)
      (headlineEndPos_le_length cfg s b lim)
  · rw [if_neg hm] at hok
    exact Except.noConfusion hok

/-- Witness for C7: on the buffer `* H\nbody\n` the parse succeeds, the
headline has contents with offsets `begin = 0`, `contents_begin = 4`,
`contents_end = 9`, `end = 9`, and the invariant chain `0 ≤ 4 ≤ 9 ≤ 9`
follows from the theorem. -/
theorem headline_contents_offsets_witness :
    Except.map
        (fun h => (h.begin_pos, h.contents_begin, h.contents_end, h.end_pos))
        (headlineParser defaultConfig ("* H\nbody\n".toList) 0 9 true) =
      Except.ok (0, some 4, some 9, 9) ∧
    ((0 : Nat) ≤ 4 ∧ (4 : Nat) ≤ 9 ∧ (9 : Nat) ≤ 9) :=
  ⟨by decide,
    (headline_contents_offsets defaultConfig ("* H\nbody\n".toList) 0 9 true
        (headline_core defaultConfig ("* H\nbody\n".toList) 0 9 true)
        (by rfl)).2 4 9 (by decide) (by decide)⟩

end OrgRs
